import Mathlib

/-!
Verification of the evaluation core of `evaluate_pii_model.py`.

The script scores a NER model's predicted entity spans against gold-labeled
CSV rows: it normalizes span text, maps dataset-specific label names to a
canonical vocabulary, compares predicted vs. gold span sets per label, and
aggregates per-label and micro-averaged precision/recall/F1.

This file shallowly embeds that pipeline: strings are `String`/`List Char`,
Python dicts are association lists, Python sets are `Finset String`,
Python ints are `Int`, and float arithmetic is modelled exactly over `ℚ`.
The external model invocation (`model.predict_entities`) is an opaque
function parameter, as the script treats it.
-/

/-! ### Text normalization (`normalize_text`, line 24-25)

`re.sub(r"\s+", " ", value.strip().lower())`: strip leading/trailing
whitespace, lowercase, collapse every whitespace run to one space. -/

/-- Python whitespace characters (the ASCII part of `str.strip` / regex `\s`):
space, tab, newline, carriage return, vertical tab, form feed. -/
def isPySpace (c : Char) : Bool :=
  c.toNat = 32 || c.toNat = 9 || c.toNat = 10 || c.toNat = 13 || c.toNat = 11 || c.toNat = 12

/-- Per-character lowercasing as in `str.lower` (ASCII range). -/
def pyLower (c : Char) : Char :=
  if 65 ≤ c.toNat ∧ c.toNat ≤ 90 then Char.ofNat (c.toNat + 32) else c

/-- Embeds `re.sub(r"\s+", " ", ·)`: replace every maximal run of whitespace by a
single space.  The last character of each run emits the `' '`. -/
def collapseSpaces : List Char → List Char
  | [] => []
  | [c] => if isPySpace c then [' '] else [c]
  | c :: d :: cs =>
    if isPySpace c then
      if isPySpace d then collapseSpaces (d :: cs)
      else ' ' :: collapseSpaces (d :: cs)
    else c :: collapseSpaces (d :: cs)

/-- Remove leading whitespace (left half of `str.strip`). -/
def stripLeft (s : List Char) : List Char := s.dropWhile isPySpace

/-- Remove trailing whitespace (right half of `str.strip`). -/
def stripRight (s : List Char) : List Char := (s.reverse.dropWhile isPySpace).reverse

/-- Embeds `str.strip()`: remove leading and trailing whitespace. -/
def pyStrip (s : List Char) : List Char := stripRight (stripLeft s)

/-- The function `normalize_text` from the script: `re.sub(r"\s+", " ", value.strip().lower())`. -/
def normalize_text (value : String) : String :=
  ⟨collapseSpaces ((pyStrip value.data).map pyLower)⟩

/-! #### Character-level lemmas -/

theorem toNat_charOfNat {n : Nat} (h : Nat.isValidChar n) : (Char.ofNat n).toNat = n := by
  unfold Char.ofNat
  rw [dif_pos h]
  simp [Char.ofNatAux, Char.toNat, UInt32.toNat]

theorem pyLower_idem (c : Char) : pyLower (pyLower c) = pyLower c := by
  unfold pyLower
  by_cases h : 65 ≤ c.toNat ∧ c.toNat ≤ 90
  · rw [if_pos h]
    have hval : (Char.ofNat (c.toNat + 32)).toNat = c.toNat + 32 :=
      toNat_charOfNat (Or.inl (by omega))
    rw [if_neg (by rw [hval]; omega)]
  · simp only [if_neg h]

theorem isPySpace_pyLower (c : Char) : isPySpace (pyLower c) = isPySpace c := by
  unfold pyLower
  by_cases h : 65 ≤ c.toNat ∧ c.toNat ≤ 90
  · rw [if_pos h]
    have hval : (Char.ofNat (c.toNat + 32)).toNat = c.toNat + 32 :=
      toNat_charOfNat (Or.inl (by omega))
    have lhs : isPySpace (Char.ofNat (c.toNat + 32)) = false := by
      unfold isPySpace
      simp only [hval, Bool.or_eq_false_iff, decide_eq_false_iff_not]
      omega
    have rhs : isPySpace c = false := by
      unfold isPySpace
      simp only [Bool.or_eq_false_iff, decide_eq_false_iff_not]
      omega
    rw [lhs, rhs]
  · rw [if_neg h]

theorem pyLower_space : pyLower ' ' = ' ' := by decide

/-! #### `dropWhile` facts -/

theorem dropWhile_fix_head {p : Char → Bool} {c : Char} {l : List Char}
    (h : (c :: l).dropWhile p = c :: l) : p c = false := by
  by_cases hc : p c
  · exfalso
    rw [List.dropWhile_cons_of_pos hc] at h
    have := (List.dropWhile_sublist (l := l) p).length_le
    have := congrArg List.length h
    simp at this
    omega
  · simpa using hc

theorem dropWhile_idem (p : Char → Bool) (l : List Char) :
    (l.dropWhile p).dropWhile p = l.dropWhile p := by
  cases h : l.dropWhile p with
  | nil => simp
  | cons c t =>
    have hc : p c = false := by
      have := List.head?_dropWhile_not p l
      rw [h] at this
      simpa using this
    rw [List.dropWhile_cons_of_neg (by simp [hc])]

theorem stripLeft_idem (l : List Char) : stripLeft (stripLeft l) = stripLeft l :=
  dropWhile_idem _ l

theorem stripRight_idem (l : List Char) : stripRight (stripRight l) = stripRight l := by
  unfold stripRight
  rw [List.reverse_reverse, dropWhile_idem]

/-- The list `stripRight l` is a prefix of `l`. -/
theorem stripRight_prefixOf (l : List Char) : stripRight l <+: l := by
  have h := List.dropWhile_suffix (l := l.reverse) isPySpace
  have := List.reverse_prefix.mpr h
  simpa [stripRight] using this

theorem stripLeft_eq_self_of_pre {l t : List Char}
    (hp : t <+: l) (h : stripLeft l = l) : stripLeft t = t := by
  obtain ⟨rest, hrest⟩ := hp
  cases t with
  | nil => simp [stripLeft]
  | cons c t' =>
    have hc : isPySpace c = false := by
      have h' : (c :: (t' ++ rest)).dropWhile isPySpace = c :: (t' ++ rest) := by
        have he : (c :: t') ++ rest = c :: (t' ++ rest) := List.cons_append c t' rest
        rw [← he, hrest]
        exact h
      exact dropWhile_fix_head h'
    unfold stripLeft
    have hc' : ¬ (isPySpace c = true) := by simp [hc]
    rw [List.dropWhile_cons_of_neg hc']

theorem stripLeft_pyStrip (s : List Char) : stripLeft (pyStrip s) = pyStrip s :=
  stripLeft_eq_self_of_pre (stripRight_prefixOf (stripLeft s)) (stripLeft_idem s)

theorem stripRight_pyStrip (s : List Char) : stripRight (pyStrip s) = pyStrip s :=
  stripRight_idem _

theorem dropWhile_congr_fun {p q : Char → Bool} (h : ∀ c, p c = q c) (l : List Char) :
    l.dropWhile p = l.dropWhile q := by
  induction l with
  | nil => rfl
  | cons c cs ih => simp [List.dropWhile_cons, h c, ih]

/-- Stripping commutes with `pyLower`-mapping since lowering preserves
whitespace status. -/
theorem stripLeft_map_pyLower (l : List Char) :
    stripLeft (l.map pyLower) = (stripLeft l).map pyLower := by
  unfold stripLeft
  rw [List.dropWhile_map]
  congr 1
  exact dropWhile_congr_fun (fun c => by simp [Function.comp, isPySpace_pyLower]) l

theorem stripRight_map_pyLower (l : List Char) :
    stripRight (l.map pyLower) = (stripRight l).map pyLower := by
  unfold stripRight
  rw [← List.map_reverse, List.dropWhile_map, List.map_reverse]
  congr 2
  exact dropWhile_congr_fun (fun c => by simp [Function.comp, isPySpace_pyLower]) l.reverse

/-! #### `collapseSpaces` facts -/

theorem collapseSpaces_cons_not_space {c : Char} (hc : isPySpace c = false) (l : List Char) :
    collapseSpaces (c :: l) = c :: collapseSpaces l := by
  cases l with
  | nil => simp [collapseSpaces, hc]
  | cons d cs => simp [collapseSpaces, hc]

theorem collapseSpaces_cons_space_space {c d : Char} (hc : isPySpace c = true)
    (hd : isPySpace d = true) (cs : List Char) :
    collapseSpaces (c :: d :: cs) = collapseSpaces (d :: cs) := by
  simp [collapseSpaces, hc, hd]

theorem collapseSpaces_cons_space_not {c d : Char} (hc : isPySpace c = true)
    (hd : isPySpace d = false) (cs : List Char) :
    collapseSpaces (c :: d :: cs) = ' ' :: collapseSpaces (d :: cs) := by
  simp [collapseSpaces, hc, hd]

theorem collapseSpaces_ne_nil {l : List Char} (h : l ≠ []) : collapseSpaces l ≠ [] := by
  induction l using collapseSpaces.induct with
  | case1 => exact absurd rfl h
  | case2 c hc => simp [collapseSpaces, hc]
  | case3 c hc => simp [collapseSpaces, hc]
  | case4 c d cs hc hd ih =>
    rw [collapseSpaces_cons_space_space hc hd]
    exact ih (by simp)
  | case5 c d cs hc hd ih =>
    rw [collapseSpaces_cons_space_not hc (by simpa using hd)]
    simp
  | case6 c d cs hc ih =>
    rw [collapseSpaces_cons_not_space (by simpa using hc)]
    simp

theorem collapseSpaces_idem (l : List Char) :
    collapseSpaces (collapseSpaces l) = collapseSpaces l := by
  induction l using collapseSpaces.induct with
  | case1 => rfl
  | case2 c hc => simp [collapseSpaces, hc]
  | case3 c hc => simp [collapseSpaces, hc]
  | case4 c d cs hc hd ih =>
    rw [collapseSpaces_cons_space_space hc hd]
    exact ih
  | case5 c d cs hc hd ih =>
    have hd' : isPySpace d = false := by simpa using hd
    rw [collapseSpaces_cons_space_not hc hd']
    obtain ⟨t, ht⟩ : ∃ t, collapseSpaces (d :: cs) = d :: t := by
      cases cs with
      | nil => exact ⟨[], by simp [collapseSpaces, hd']⟩
      | cons e es => exact ⟨_, collapseSpaces_cons_not_space hd' (e :: es)⟩
    rw [ht]
    rw [collapseSpaces_cons_space_not (by decide) hd']
    rw [← ht, ih]
  | case6 c d cs hc ih =>
    have hc' : isPySpace c = false := by simpa using hc
    rw [collapseSpaces_cons_not_space hc']
    rw [collapseSpaces_cons_not_space hc', ih]

theorem mem_collapseSpaces {x : Char} {l : List Char} (h : x ∈ collapseSpaces l) :
    x = ' ' ∨ x ∈ l := by
  induction l using collapseSpaces.induct with
  | case1 => simp [collapseSpaces] at h
  | case2 c hc =>
    simp [collapseSpaces, hc] at h
    exact Or.inl h
  | case3 c hc =>
    simp [collapseSpaces, hc] at h
    exact Or.inr (by simp [h])
  | case4 c d cs hc hd ih =>
    rw [collapseSpaces_cons_space_space hc hd] at h
    rcases ih h with h' | h'
    · exact Or.inl h'
    · exact Or.inr (List.mem_cons_of_mem c h')
  | case5 c d cs hc hd ih =>
    rw [collapseSpaces_cons_space_not hc (by simpa using hd)] at h
    rcases List.mem_cons.mp h with h' | h'
    · exact Or.inl h'
    · rcases ih h' with h'' | h''
      · exact Or.inl h''
      · exact Or.inr (List.mem_cons_of_mem c h'')
  | case6 c d cs hc ih =>
    rw [collapseSpaces_cons_not_space (by simpa using hc)] at h
    rcases List.mem_cons.mp h with h' | h'
    · exact Or.inr (by simp [h'])
    · rcases ih h' with h'' | h''
      · exact Or.inl h''
      · exact Or.inr (List.mem_cons_of_mem c h'')

/-! #### `collapseSpaces` preserves stripped-ness -/

theorem stripLeft_eq_self_iff_head {l : List Char} :
    stripLeft l = l ↔ ∀ c, l.head? = some c → isPySpace c = false := by
  constructor
  · intro h c hc
    cases l with
    | nil => simp at hc
    | cons a t =>
      obtain rfl : a = c := by simpa using hc
      exact dropWhile_fix_head h
  · intro h
    cases l with
    | nil => rfl
    | cons a t =>
      have := h a (by simp)
      unfold stripLeft
      rw [List.dropWhile_cons_of_neg (by simp [this])]

theorem stripLeft_collapseSpaces {l : List Char} (h : stripLeft l = l) :
    stripLeft (collapseSpaces l) = collapseSpaces l := by
  rw [stripLeft_eq_self_iff_head] at h ⊢
  intro c hc
  cases l with
  | nil => simp [collapseSpaces] at hc
  | cons a t =>
    have ha : isPySpace a = false := h a (by simp)
    rw [collapseSpaces_cons_not_space ha] at hc
    obtain rfl : a = c := by simpa using hc
    exact ha

theorem stripRight_eq_self_iff_getLast {l : List Char} :
    stripRight l = l ↔ ∀ c, l.getLast? = some c → isPySpace c = false := by
  constructor
  · intro h c hc
    have hrev : l.reverse.head? = some c := by
      rw [List.head?_reverse]
      exact hc
    have h' : stripLeft l.reverse = l.reverse := by
      unfold stripRight at h
      have := congrArg List.reverse h
      rw [List.reverse_reverse] at this
      exact this
    rw [stripLeft_eq_self_iff_head] at h'
    exact h' c hrev
  · intro h
    unfold stripRight
    have h' : stripLeft l.reverse = l.reverse := by
      rw [stripLeft_eq_self_iff_head]
      intro c hc
      rw [List.head?_reverse] at hc
      exact h c hc
    rw [show l.reverse.dropWhile isPySpace = stripLeft l.reverse from rfl, h',
      List.reverse_reverse]

theorem getLast?_cons_ne_nil {a : Char} {X : List Char} (h : X ≠ []) :
    (a :: X).getLast? = X.getLast? := by
  cases X with
  | nil => exact absurd rfl h
  | cons e es => exact List.getLast?_cons_cons

theorem getLast?_collapseSpaces {l : List Char}
    (h : ∀ c, l.getLast? = some c → isPySpace c = false) :
    ∀ c, (collapseSpaces l).getLast? = some c → isPySpace c = false := by
  induction l using collapseSpaces.induct with
  | case1 => intro c hc; simp [collapseSpaces] at hc
  | case2 a ha =>
    exact fun c hc => absurd (h a (by simp)) (by simp [ha])
  | case3 a ha =>
    intro c hc
    simp [collapseSpaces, by simpa using ha] at hc
    subst hc
    simpa using ha
  | case4 a d cs ha hd ih =>
    rw [collapseSpaces_cons_space_space ha hd]
    exact ih (fun c hc => h c (by rwa [List.getLast?_cons_cons]))
  | case5 a d cs ha hd ih =>
    rw [collapseSpaces_cons_space_not ha (by simpa using hd)]
    intro c hc
    have hne : collapseSpaces (d :: cs) ≠ [] := collapseSpaces_ne_nil (by simp)
    rw [getLast?_cons_ne_nil hne] at hc
    exact ih (fun c' hc' => h c' (by rwa [List.getLast?_cons_cons])) c hc
  | case6 a d cs ha ih =>
    rw [collapseSpaces_cons_not_space (by simpa using ha)]
    intro c hc
    have hne : collapseSpaces (d :: cs) ≠ [] := collapseSpaces_ne_nil (by simp)
    rw [getLast?_cons_ne_nil hne] at hc
    exact ih (fun c' hc' => h c' (by rwa [List.getLast?_cons_cons])) c hc

theorem stripRight_collapseSpaces {l : List Char} (h : stripRight l = l) :
    stripRight (collapseSpaces l) = collapseSpaces l := by
  rw [stripRight_eq_self_iff_getLast] at h ⊢
  exact getLast?_collapseSpaces h

theorem map_id_of_mem {f : Char → Char} {l : List Char} (h : ∀ x ∈ l, f x = x) :
    l.map f = l := by
  induction l with
  | nil => rfl
  | cons c cs ih => simp [h c (by simp), ih (fun x hx => h x (List.mem_cons_of_mem c hx))]

/-! #### Idempotence of normalization (claim C8) -/

theorem pyStrip_collapse_lowered (s : List Char) :
    pyStrip (collapseSpaces ((pyStrip s).map pyLower)) =
      collapseSpaces ((pyStrip s).map pyLower) := by
  have hsl : stripLeft ((pyStrip s).map pyLower) = (pyStrip s).map pyLower := by
    rw [stripLeft_map_pyLower, stripLeft_pyStrip]
  have hsr : stripRight ((pyStrip s).map pyLower) = (pyStrip s).map pyLower := by
    rw [stripRight_map_pyLower, stripRight_pyStrip]
  rw [show pyStrip (collapseSpaces ((pyStrip s).map pyLower)) =
      stripRight (stripLeft (collapseSpaces ((pyStrip s).map pyLower))) from rfl]
  rw [stripLeft_collapseSpaces hsl, stripRight_collapseSpaces hsr]

theorem map_pyLower_collapse_lowered (s : List Char) :
    (collapseSpaces ((pyStrip s).map pyLower)).map pyLower =
      collapseSpaces ((pyStrip s).map pyLower) := by
  apply map_id_of_mem
  intro x hx
  rcases mem_collapseSpaces hx with rfl | hx'
  · exact pyLower_space
  · obtain ⟨y, _, rfl⟩ := List.mem_map.mp hx'
    exact pyLower_idem y

/-- Claim C8: text normalization — collapse every whitespace run to a single
space, trim leading and trailing whitespace, lowercase — is idempotent:
`normalize_text (normalize_text x) = normalize_text x` for every string `x`. -/
theorem normalize_text_idem (x : String) :
    normalize_text (normalize_text x) = normalize_text x := by
  unfold normalize_text
  apply congrArg String.mk
  show collapseSpaces ((pyStrip (collapseSpaces ((pyStrip x.data).map pyLower))).map pyLower)
      = collapseSpaces ((pyStrip x.data).map pyLower)
  rw [pyStrip_collapse_lowered, map_pyLower_collapse_lowered, collapseSpaces_idem]

/-! ### Data model

`DatasetRow`, `PredictedEntity`, `LabelCounts` (spec §3), embedded from
`evaluate_pii_model.py`.  Python dict values in the gold-labels cell may be
arbitrary literals; only strings survive the gold filter, so non-string
values are modelled by a single `other` constructor. -/

/-- A parsed Python literal value inside a gold-labels list: a string, or
anything else (dropped by the `isinstance(v, str)` check on line 90). -/
inductive PyVal where
  | str (s : String)
  | other
deriving DecidableEq

/-- A predicted entity as returned by `model.predict_entities`: the script
reads `ent.get("label")` and `ent.get("text", "")` (lines 80-81); an absent
value is modelled as `""` (both are falsy in the `if label and token` test). -/
structure Entity where
  label : String
  text : String
deriving DecidableEq

/-- A loaded dataset row: the text column and the parsed gold-labels mapping
(label → list of gold values), a Python dict modelled as an association list. -/
structure Row where
  text : String
  gold : List (String × List PyVal)
deriving DecidableEq

/-- The per-label tp/fp/fn accumulator (`counts` defaultdict, line 62).
Python ints are modelled as `Int`. -/
structure Counts where
  tp : Int
  fp : Int
  fn : Int
deriving DecidableEq

def Counts.add (a b : Counts) : Counts := ⟨a.tp + b.tp, a.fp + b.fp, a.fn + b.fn⟩

/-- The table `DEFAULT_CANONICAL_LABEL_MAP` (lines 13-21). -/
def DEFAULT_CANONICAL_LABEL_MAP : List (String × String) :=
  [("NAME_STUDENT", "person name"),
   ("EMAIL", "email address"),
   ("USERNAME", "username"),
   ("ID_NUM", "id number"),
   ("PHONE_NUM", "phone number"),
   ("URL_PERSONAL", "url"),
   ("STREET_ADDRESS", "address")]

/-- Embeds `canonical_label_map.get(label, label)` (line 71): map a dataset label
through the canonical map, falling back to the label itself. -/
def canonicalize (cmap : List (String × String)) (label : String) : String :=
  (cmap.lookup label).getD label

/-- Embeds `sorted(gold_dict.keys())` (line 66). -/
def datasetLabels (r : Row) : List String :=
  (r.gold.map Prod.fst).insertionSort (· ≤ ·)

/-- Embeds `sorted(set(dataset_to_canonical.values()))` (line 74): the distinct
canonical labels of the row's gold label keys, sorted. -/
def canonicalLabelsOf (cmap : List (String × String)) (r : Row) : List String :=
  (((datasetLabels r).map (canonicalize cmap)).dedup).insertionSort (· ≤ ·)

/-- The entity filter on line 82: `if label and token` — both non-empty. -/
def keepEntity (e : Entity) : Bool :=
  e.label ≠ "" && e.text ≠ ""

/-- Embeds the `pred_by_canonical` group for one label (lines 78-83 and 93): the set of normalized
texts of retained entities carrying exactly this label; `{}` when none. -/
def predSetOf (ents : List Entity) (canonicalLabel : String) : Finset String :=
  ((ents.filter fun e => keepEntity e && e.label == canonicalLabel).map
    fun e => normalize_text e.text).toFinset

/-- Embeds `gold_dict.get(label, []) or []` (line 86). -/
def rowGoldValues (r : Row) (label : String) : List PyVal :=
  (r.gold.lookup label).getD []

/-- The gold set construction on lines 87-91: normalize every gold value that
is a string and not blank. -/
def goldSetOf (values : List PyVal) : Finset String :=
  (values.filterMap fun v =>
    match v with
    | .str s => if pyStrip s.data ≠ [] then some (normalize_text s) else none
    | .other => none).toFinset

def goldSetFor (r : Row) (label : String) : Finset String :=
  goldSetOf (rowGoldValues r label)

/-- tp/fp/fn of a single (gold, predicted) set pair (lines 95-97). -/
def scoreLabel (g p : Finset String) : Counts :=
  ⟨((g ∩ p).card : Int), ((p \ g).card : Int), ((g \ p).card : Int)⟩

/-- The running state of the evaluation loop: the counts accumulator and
`rows_used`. -/
structure EvalState where
  counts : String → Counts
  rows_used : Int

def initialState : EvalState := ⟨fun _ => ⟨0, 0, 0⟩, 0⟩

/-- The model invocation `model.predict_entities(text, canonical_labels,
threshold=threshold)` is an external collaborator: an opaque function from
text, label list and threshold to a list of predicted entities. -/
def Predictor : Type := String → List String → ℚ → List Entity

/-- The per-dataset-label predicted set used when scoring label `l` of row
`r`: the canonical group `pred_by_canonical.get(dataset_to_canonical[l], set())`. -/
def predSetFor (predict : Predictor) (threshold : ℚ) (cmap : List (String × String))
    (r : Row) (l : String) : Finset String :=
  predSetOf (predict r.text (canonicalLabelsOf cmap r) threshold) (canonicalize cmap l)

/-- The body of the per-row loop (lines 65-103): skip the row if it has no
gold labels; otherwise call the model once and update every dataset label's
counts by the set-difference scores. -/
def processRow (predict : Predictor) (threshold : ℚ) (cmap : List (String × String))
    (st : EvalState) (r : Row) : EvalState :=
  let dls := datasetLabels r
  if dls.isEmpty then st
  else
    let ents := predict r.text (canonicalLabelsOf cmap r) threshold
    { counts := dls.foldl
        (fun cts l => fun l' =>
          if l' = l then
            (cts l').add (scoreLabel (goldSetFor r l) (predSetOf ents (canonicalize cmap l)))
          else cts l')
        st.counts,
      rows_used := st.rows_used + 1 }

/-- The whole evaluation loop over the loaded rows. -/
def runEval (predict : Predictor) (threshold : ℚ) (cmap : List (String × String))
    (rows : List Row) : EvalState :=
  rows.foldl (processRow predict threshold cmap) initialState

/-! ### Row loader (`load_rows`, lines 28-44)

The CSV reader and `ast.literal_eval` are external: a CSV row is its
already-extracted `(text, labels-cell)` pair (with the dict-lookup defaults
of lines 34-35 applied), and the literal parser is an opaque function whose
outcome is a parsed dict, a non-dict literal, or a parse failure. -/

/-- One raw CSV row: the text cell (`row.get(text_col, "")`) and the labels
cell (`row.get(labels_col, "{}")`). -/
structure CsvRow where
  text : String
  rawLabels : String
deriving DecidableEq

/-- The outcome of `ast.literal_eval` on a labels cell: a dict (line 39),
some other literal (line 40-41), or an exception (line 42-43). -/
inductive LitResult where
  | dict (d : List (String × List PyVal))
  | nonDict
  | err

/-- A parser for Python literal syntax, external to the script. -/
def LiteralEval : Type := String → LitResult

/-- The cap test `max_rows is not None and idx >= max_rows` (line 32). -/
def capReached (maxRows : Option Int) (idx : Nat) : Bool :=
  match maxRows with
  | some m => (idx : Int) ≥ m
  | none => false

/-- The row filter of lines 34-43: skip when the text is empty, the labels
cell fails to parse, or the parsed literal is not a dict. -/
def rowKeep (parse : LiteralEval) (r : CsvRow) : Option Row :=
  if r.text = "" then none
  else
    match parse r.rawLabels with
    | .dict d => some ⟨r.text, d⟩
    | _ => none

/-- The function `load_rows` (lines 28-44): enumerate the raw rows, break once the row cap
is reached, yield the surviving rows. -/
def load_rows (parse : LiteralEval) (maxRows : Option Int) :
    Nat → List CsvRow → List Row
  | _, [] => []
  | idx, r :: rest =>
    if capReached maxRows idx then []
    else
      match rowKeep parse r with
      | some row => row :: load_rows parse maxRows (idx + 1) rest
      | none => load_rows parse maxRows (idx + 1) rest

theorem load_rows_none (parse : LiteralEval) :
    ∀ (idx : Nat) (rows : List CsvRow),
      load_rows parse none idx rows = rows.filterMap (rowKeep parse) := by
  intro idx rows
  induction rows generalizing idx with
  | nil => rfl
  | cons r rest ih =>
    show (if capReached none idx then [] else _) = _
    rw [if_neg (by simp [capReached])]
    cases h : rowKeep parse r with
    | some row => simp [List.filterMap_cons, h, ih (idx + 1)]
    | none => simp [List.filterMap_cons, h, ih (idx + 1)]

theorem load_rows_some (parse : LiteralEval) (m : Int) :
    ∀ (idx : Nat) (rows : List CsvRow),
      load_rows parse (some m) idx rows =
        (rows.take (m - idx).toNat).filterMap (rowKeep parse) := by
  intro idx rows
  induction rows generalizing idx with
  | nil => simp [load_rows]
  | cons r rest ih =>
    by_cases hcap : (idx : Int) ≥ m
    · have h1 : capReached (some m) idx = true := by simp [capReached, hcap]
      have h2 : (m - idx).toNat = 0 := by omega
      show (if capReached (some m) idx then [] else _) = _
      rw [if_pos h1, h2]
      simp
    · have h1 : capReached (some m) idx = false := by simp [capReached]; omega
      have h2 : (m - idx).toNat = (m - (idx + 1)).toNat + 1 := by omega
      show (if capReached (some m) idx then [] else _) = _
      rw [if_neg (by simp [h1]), h2]
      cases h : rowKeep parse r with
      | some row => simp [List.take_succ_cons, List.filterMap_cons, h, ih (idx + 1)]
      | none => simp [List.take_succ_cons, List.filterMap_cons, h, ih (idx + 1)]

/-- Claim C4: the row cap bounds rows *read* (the loaded rows are a filter of
the first `max_rows` raw rows), and a read row is silently skipped — it
simply never appears in the output, with no error value — exactly when its
text is empty, its labels cell fails to parse, or the parsed literal is not
a mapping. -/
theorem load_rows_spec (parse : LiteralEval) (rows : List CsvRow) :
    (∀ m : Int, load_rows parse (some m) 0 rows =
        (rows.take m.toNat).filterMap (rowKeep parse))
    ∧ load_rows parse none 0 rows = rows.filterMap (rowKeep parse)
    ∧ (∀ r : CsvRow,
        (rowKeep parse r = none ↔
          r.text = "" ∨ parse r.rawLabels = .nonDict ∨ parse r.rawLabels = .err)) := by
  refine ⟨fun m => ?_, load_rows_none parse 0 rows, fun r => ?_⟩
  · have := load_rows_some parse m 0 rows
    simpa using this
  · unfold rowKeep
    by_cases ht : r.text = ""
    · simp [ht]
    · cases hp : parse r.rawLabels with
      | dict d => simp [ht, hp]
      | nonDict => simp [ht, hp]
      | err => simp [ht, hp]

/-! ### Per-row count updates (claims C1, C6, C7, C9) -/

theorem foldl_counts_update (f g : String → Counts) (ks : List String) (hnd : ks.Nodup)
    (x : String) :
    ks.foldl (fun cts l => fun l' => if l' = l then (cts l').add (g l) else cts l') f x
      = if x ∈ ks then (f x).add (g x) else f x := by
  induction ks generalizing f with
  | nil => simp
  | cons k ks ih =>
    obtain ⟨hk, hnd'⟩ := List.nodup_cons.mp hnd
    rw [List.foldl_cons, ih _ hnd']
    by_cases h1 : x = k
    · subst h1
      have : x ∉ ks := hk
      simp [this]
    · by_cases h2 : x ∈ ks <;> simp [h1, h2]

theorem datasetLabels_perm (r : Row) :
    List.Perm (datasetLabels r) (r.gold.map Prod.fst) :=
  List.perm_insertionSort _ _

theorem datasetLabels_empty_iff (r : Row) :
    (datasetLabels r).isEmpty = true ↔ r.gold = [] := by
  rw [List.isEmpty_iff]
  constructor
  · intro h
    have := (datasetLabels_perm r).symm
    rw [h] at this
    have := this.eq_nil
    exact List.map_eq_nil_iff.mp this
  · intro h
    have := datasetLabels_perm r
    rw [h] at this
    simpa using this.eq_nil

/-- How one row changes the accumulator: every dataset label key of the row
gets exactly the set-difference score added; every other label is untouched. -/
theorem processRow_counts (predict : Predictor) (threshold : ℚ)
    (cmap : List (String × String)) (st : EvalState) (r : Row)
    (hnd : (r.gold.map Prod.fst).Nodup) (l : String) :
    (processRow predict threshold cmap st r).counts l =
      if l ∈ r.gold.map Prod.fst then
        (st.counts l).add (scoreLabel (goldSetFor r l) (predSetFor predict threshold cmap r l))
      else st.counts l := by
  unfold processRow
  by_cases hemp : (datasetLabels r).isEmpty
  · have hnil : r.gold = [] := (datasetLabels_empty_iff r).mp hemp
    simp [hemp, hnil]
  · have hnd' : (datasetLabels r).Nodup := ((datasetLabels_perm r).nodup_iff).mpr hnd
    simp only [hemp, Bool.false_eq_true, if_false]
    show (datasetLabels r).foldl _ st.counts l = _
    rw [foldl_counts_update st.counts
      (fun l => scoreLabel (goldSetFor r l)
        (predSetOf (predict r.text (canonicalLabelsOf cmap r) threshold) (canonicalize cmap l)))
      (datasetLabels r) hnd' l]
    by_cases hl : l ∈ r.gold.map Prod.fst
    · rw [if_pos ((datasetLabels_perm r).mem_iff.mpr hl), if_pos hl]
      rfl
    · rw [if_neg (fun hc => hl ((datasetLabels_perm r).mem_iff.mp hc)), if_neg hl]

theorem processRow_rows_used (predict : Predictor) (threshold : ℚ)
    (cmap : List (String × String)) (st : EvalState) (r : Row) :
    (processRow predict threshold cmap st r).rows_used =
      if r.gold = [] then st.rows_used else st.rows_used + 1 := by
  unfold processRow
  by_cases hemp : (datasetLabels r).isEmpty
  · simp [hemp, (datasetLabels_empty_iff r).mp hemp]
  · have : ¬ r.gold = [] := fun h => hemp ((datasetLabels_empty_iff r).mpr h)
    simp [hemp, this]

/-- Claim C1: for every processed row and every dataset label key of that
row's gold mapping, the accumulated counts for that label are incremented by
exactly `tp = |gold_set ∩ pred_set|`, `fp = |pred_set \ gold_set|`,
`fn = |gold_set \ pred_set|`, where `gold_set` drops non-string or blank gold
values and `pred_set` is the predicted span set attributed to that label. -/
theorem processRow_increments (predict : Predictor) (threshold : ℚ)
    (cmap : List (String × String)) (st : EvalState) (r : Row) (l : String)
    (hnd : (r.gold.map Prod.fst).Nodup) (hl : l ∈ r.gold.map Prod.fst) :
    (processRow predict threshold cmap st r).counts l =
      ⟨(st.counts l).tp + ((goldSetFor r l ∩ predSetFor predict threshold cmap r l).card : Int),
       (st.counts l).fp + ((predSetFor predict threshold cmap r l \ goldSetFor r l).card : Int),
       (st.counts l).fn + ((goldSetFor r l \ predSetFor predict threshold cmap r l).card : Int)⟩ := by
  rw [processRow_counts predict threshold cmap st r hnd l, if_pos hl]
  rfl

theorem processRow_increments_witness :
    (((⟨"x", [("EMAIL", [PyVal.str "a@b.com"])]⟩ : Row).gold.map Prod.fst).Nodup) ∧
    "EMAIL" ∈ ((⟨"x", [("EMAIL", [PyVal.str "a@b.com"])]⟩ : Row).gold.map Prod.fst) ∧
    (processRow (fun _ _ _ => []) (1/2) DEFAULT_CANONICAL_LABEL_MAP initialState
        ⟨"x", [("EMAIL", [PyVal.str "a@b.com"])]⟩).counts "EMAIL" =
      ⟨(initialState.counts "EMAIL").tp +
        ((goldSetFor ⟨"x", [("EMAIL", [PyVal.str "a@b.com"])]⟩ "EMAIL" ∩
          predSetFor (fun _ _ _ => []) (1/2) DEFAULT_CANONICAL_LABEL_MAP
            ⟨"x", [("EMAIL", [PyVal.str "a@b.com"])]⟩ "EMAIL").card : Int),
       (initialState.counts "EMAIL").fp +
        ((predSetFor (fun _ _ _ => []) (1/2) DEFAULT_CANONICAL_LABEL_MAP
            ⟨"x", [("EMAIL", [PyVal.str "a@b.com"])]⟩ "EMAIL" \
          goldSetFor ⟨"x", [("EMAIL", [PyVal.str "a@b.com"])]⟩ "EMAIL").card : Int),
       (initialState.counts "EMAIL").fn +
        ((goldSetFor ⟨"x", [("EMAIL", [PyVal.str "a@b.com"])]⟩ "EMAIL" \
          predSetFor (fun _ _ _ => []) (1/2) DEFAULT_CANONICAL_LABEL_MAP
            ⟨"x", [("EMAIL", [PyVal.str "a@b.com"])]⟩ "EMAIL").card : Int)⟩ :=
  ⟨by decide, by decide,
    processRow_increments (fun _ _ _ => []) (1/2) DEFAULT_CANONICAL_LABEL_MAP initialState
      ⟨"x", [("EMAIL", [PyVal.str "a@b.com"])]⟩ "EMAIL" (by decide) (by decide)⟩

/-- Claim C6: a loaded row whose gold mapping has no keys is skipped entirely
(`if not dataset_labels: continue`, lines 66-68): the state is unchanged, and
at the end of a run `rows_used` equals the number of loaded rows with a
non-empty gold label mapping. -/
theorem emptyGold_skips_row (predict : Predictor) (threshold : ℚ)
    (cmap : List (String × String)) :
    (∀ (st : EvalState) (r : Row), r.gold = [] →
        processRow predict threshold cmap st r = st) ∧
    (∀ rows : List Row, (runEval predict threshold cmap rows).rows_used =
        ((rows.filter fun r => !(r.gold.isEmpty)).length : Int)) := by
  constructor
  · intro st r hnil
    unfold processRow
    rw [if_pos ((datasetLabels_empty_iff r).mpr hnil)]
  · intro rows
    suffices h : ∀ st : EvalState, ((rows.foldl (processRow predict threshold cmap) st).rows_used =
        st.rows_used + ((rows.filter fun r => !(r.gold.isEmpty)).length : Int)) by
      have := h initialState
      unfold runEval
      rw [this]
      show (0 : Int) + _ = _
      rw [zero_add]
    induction rows with
    | nil => intro st; simp
    | cons r rest ih =>
      intro st
      rw [List.foldl_cons, ih]
      rw [processRow_rows_used]
      by_cases hnil : r.gold = []
      · have : (!(r.gold.isEmpty)) = false := by simp [hnil]
        rw [if_pos hnil]
        simp [List.filter_cons, this]
      · have : (!(r.gold.isEmpty)) = true := by simp [hnil]
        rw [if_neg hnil]
        simp only [List.filter_cons, this, if_true, List.length_cons]
        push_cast
        ring

theorem emptyGold_skips_row_witness :
    processRow (fun _ _ _ => []) (1/2) DEFAULT_CANONICAL_LABEL_MAP initialState ⟨"t", []⟩ =
      initialState :=
  (emptyGold_skips_row (fun _ _ _ => []) (1/2) DEFAULT_CANONICAL_LABEL_MAP).1
    initialState ⟨"t", []⟩ rfl

/-! ### Conservation of counts (claim C7) -/

/-- The gold-set size a single row contributes to a dataset label. -/
def goldContribution (r : Row) (l : String) : Int :=
  if l ∈ r.gold.map Prod.fst then ((goldSetFor r l).card : Int) else 0

/-- The predicted-set size a single row attributes to a dataset label. -/
def predContribution (predict : Predictor) (threshold : ℚ)
    (cmap : List (String × String)) (r : Row) (l : String) : Int :=
  if l ∈ r.gold.map Prod.fst then ((predSetFor predict threshold cmap r l).card : Int) else 0

theorem Counts.add_tp (a b : Counts) : (a.add b).tp = a.tp + b.tp := rfl

theorem Counts.add_fp (a b : Counts) : (a.add b).fp = a.fp + b.fp := rfl

theorem Counts.add_fn (a b : Counts) : (a.add b).fn = a.fn + b.fn := rfl

theorem scoreLabel_tp (g p : Finset String) : (scoreLabel g p).tp = ((g ∩ p).card : Int) := rfl

theorem scoreLabel_fp (g p : Finset String) : (scoreLabel g p).fp = ((p \ g).card : Int) := rfl

theorem scoreLabel_fn (g p : Finset String) : (scoreLabel g p).fn = ((g \ p).card : Int) := rfl

theorem run_counts_totals (predict : Predictor) (threshold : ℚ)
    (cmap : List (String × String)) (l : String) :
    ∀ (rows : List Row) (st : EvalState), (∀ r ∈ rows, (r.gold.map Prod.fst).Nodup) →
      (((rows.foldl (processRow predict threshold cmap) st).counts l).tp +
          ((rows.foldl (processRow predict threshold cmap) st).counts l).fn =
        (st.counts l).tp + (st.counts l).fn +
          (rows.map fun r => goldContribution r l).sum) ∧
      (((rows.foldl (processRow predict threshold cmap) st).counts l).tp +
          ((rows.foldl (processRow predict threshold cmap) st).counts l).fp =
        (st.counts l).tp + (st.counts l).fp +
          (rows.map fun r => predContribution predict threshold cmap r l).sum) := by
  intro rows
  induction rows with
  | nil => intro st _; simp
  | cons r rest ih =>
    intro st hnd
    have hr : (r.gold.map Prod.fst).Nodup := hnd r (by simp)
    have hrest : ∀ r' ∈ rest, (r'.gold.map Prod.fst).Nodup :=
      fun r' hr' => hnd r' (List.mem_cons_of_mem r hr')
    rw [List.foldl_cons]
    obtain ⟨ih1, ih2⟩ := ih (processRow predict threshold cmap st r) hrest
    rw [ih1, ih2]
    clear ih1 ih2
    rw [processRow_counts predict threshold cmap st r hr l]
    have hgc : goldContribution r l =
        if l ∈ r.gold.map Prod.fst then ((goldSetFor r l).card : Int) else 0 := rfl
    have hpc : predContribution predict threshold cmap r l =
        if l ∈ r.gold.map Prod.fst
        then ((predSetFor predict threshold cmap r l).card : Int) else 0 := rfl
    constructor
    · by_cases hl : l ∈ r.gold.map Prod.fst
      · rw [if_pos hl]
        simp only [List.map_cons, List.sum_cons, hgc, if_pos hl,
          Counts.add_tp, Counts.add_fn, scoreLabel_tp, scoreLabel_fn]
        have hcard := Finset.card_inter_add_card_sdiff
          (goldSetFor r l) (predSetFor predict threshold cmap r l)
        omega
      · rw [if_neg hl]
        simp only [List.map_cons, List.sum_cons, hgc, if_neg hl]
        ring
    · by_cases hl : l ∈ r.gold.map Prod.fst
      · rw [if_pos hl]
        simp only [List.map_cons, List.sum_cons, hpc, if_pos hl,
          Counts.add_tp, Counts.add_fp, scoreLabel_tp, scoreLabel_fp]
        have hcard := Finset.card_inter_add_card_sdiff
          (predSetFor predict threshold cmap r l) (goldSetFor r l)
        rw [Finset.inter_comm] at hcard
        omega
      · rw [if_neg hl]
        simp only [List.map_cons, List.sum_cons, hpc, if_neg hl]
        ring

/-- Claim C7: across an entire run, each label's accumulated `tp + fn` equals
the sum over the processed rows of that label's gold set size, and `tp + fp`
equals the sum of the (possibly label-merged) predicted set sizes attributed
to that label. -/
theorem counts_conservation (predict : Predictor) (threshold : ℚ)
    (cmap : List (String × String)) (rows : List Row) (l : String)
    (hnd : ∀ r ∈ rows, (r.gold.map Prod.fst).Nodup) :
    (((runEval predict threshold cmap rows).counts l).tp +
        ((runEval predict threshold cmap rows).counts l).fn =
      (rows.map fun r => goldContribution r l).sum) ∧
    (((runEval predict threshold cmap rows).counts l).tp +
        ((runEval predict threshold cmap rows).counts l).fp =
      (rows.map fun r => predContribution predict threshold cmap r l).sum) := by
  obtain ⟨h1, h2⟩ := run_counts_totals predict threshold cmap l rows initialState hnd
  unfold runEval
  rw [h1, h2]
  constructor
  · show (0 : Int) + 0 + _ = _
    ring
  · show (0 : Int) + 0 + _ = _
    ring

theorem counts_conservation_witness :
    (∀ r ∈ [(⟨"x", [("EMAIL", [PyVal.str "a@b.com"])]⟩ : Row)],
      (r.gold.map Prod.fst).Nodup) ∧
    (((runEval (fun _ _ _ => []) (1/2) DEFAULT_CANONICAL_LABEL_MAP
          [⟨"x", [("EMAIL", [PyVal.str "a@b.com"])]⟩]).counts "EMAIL").tp +
        ((runEval (fun _ _ _ => []) (1/2) DEFAULT_CANONICAL_LABEL_MAP
          [⟨"x", [("EMAIL", [PyVal.str "a@b.com"])]⟩]).counts "EMAIL").fn =
      (List.map (fun r => goldContribution r "EMAIL")
          [(⟨"x", [("EMAIL", [PyVal.str "a@b.com"])]⟩ : Row)]).sum) :=
  ⟨by decide,
    (counts_conservation (fun _ _ _ => []) (1/2) DEFAULT_CANONICAL_LABEL_MAP
      [⟨"x", [("EMAIL", [PyVal.str "a@b.com"])]⟩] "EMAIL" (by decide)).1⟩

/-! ### Invariants of the accumulator (claim C9) -/

/-- Fieldwise order on count records. -/
def Counts.le (a b : Counts) : Prop := a.tp ≤ b.tp ∧ a.fp ≤ b.fp ∧ a.fn ≤ b.fn

theorem Counts.le_refl (a : Counts) : a.le a := ⟨le_rfl, le_rfl, le_rfl⟩

theorem Counts.le_trans {a b c : Counts} (h1 : a.le b) (h2 : b.le c) : a.le c :=
  ⟨h1.1.trans h2.1, h1.2.1.trans h2.2.1, h1.2.2.trans h2.2.2⟩

theorem scoreLabel_nonneg (g p : Finset String) :
    (Counts.mk 0 0 0).le (scoreLabel g p) :=
  ⟨Int.natCast_nonneg _, Int.natCast_nonneg _, Int.natCast_nonneg _⟩

theorem counts_le_add_of_nonneg {b : Counts} (a : Counts)
    (hb : (Counts.mk 0 0 0).le b) : a.le (a.add b) := by
  have h1 : (0 : Int) ≤ b.tp := hb.1
  have h2 : (0 : Int) ≤ b.fp := hb.2.1
  have h3 : (0 : Int) ≤ b.fn := hb.2.2
  refine ⟨?_, ?_, ?_⟩ <;> simp only [Counts.add] <;> omega

theorem foldl_update_ge (g : String → Counts)
    (hg : ∀ l, (Counts.mk 0 0 0).le (g l)) :
    ∀ (ks : List String) (f : String → Counts) (x : String),
      (f x).le
        ((ks.foldl (fun cts l => fun l' => if l' = l then (cts l').add (g l) else cts l') f) x) := by
  intro ks
  induction ks with
  | nil => intro f x; exact Counts.le_refl _
  | cons k ks ih =>
    intro f x
    rw [List.foldl_cons]
    refine Counts.le_trans ?_ (ih _ x)
    by_cases hx : x = k
    · subst hx
      simp only [if_pos rfl]
      exact counts_le_add_of_nonneg _ (hg x)
    · simp only [if_neg hx]
      exact Counts.le_refl _

theorem processRow_counts_ge (predict : Predictor) (threshold : ℚ)
    (cmap : List (String × String)) (st : EvalState) (r : Row) (l : String) :
    (st.counts l).le ((processRow predict threshold cmap st r).counts l) := by
  unfold processRow
  by_cases hemp : (datasetLabels r).isEmpty
  · simp only [hemp, if_true]
    exact Counts.le_refl _
  · simp only [hemp, Bool.false_eq_true, if_false]
    exact foldl_update_ge _ (fun l' => scoreLabel_nonneg _ _) (datasetLabels r) st.counts l

theorem run_counts_ge (predict : Predictor) (threshold : ℚ)
    (cmap : List (String × String)) (l : String) :
    ∀ (rows : List Row) (st : EvalState),
      (st.counts l).le ((rows.foldl (processRow predict threshold cmap) st).counts l) := by
  intro rows
  induction rows with
  | nil => intro st; exact Counts.le_refl _
  | cons r rest ih =>
    intro st
    rw [List.foldl_cons]
    exact Counts.le_trans (processRow_counts_ge predict threshold cmap st r l) (ih _)

/-- Claim C9: throughout a run every accumulated count is non-negative, and
each of tp/fp/fn is monotonically non-decreasing as rows are processed (the
state after `n+1` rows dominates the state after `n` rows). -/
theorem counts_nonneg_monotone (predict : Predictor) (threshold : ℚ)
    (cmap : List (String × String)) (rows : List Row) (l : String) (n : Nat) :
    (0 ≤ ((runEval predict threshold cmap (rows.take n)).counts l).tp ∧
     0 ≤ ((runEval predict threshold cmap (rows.take n)).counts l).fp ∧
     0 ≤ ((runEval predict threshold cmap (rows.take n)).counts l).fn) ∧
    (((runEval predict threshold cmap (rows.take n)).counts l).tp ≤
        ((runEval predict threshold cmap (rows.take (n + 1))).counts l).tp ∧
     ((runEval predict threshold cmap (rows.take n)).counts l).fp ≤
        ((runEval predict threshold cmap (rows.take (n + 1))).counts l).fp ∧
     ((runEval predict threshold cmap (rows.take n)).counts l).fn ≤
        ((runEval predict threshold cmap (rows.take (n + 1))).counts l).fn) := by
  constructor
  · have h := run_counts_ge predict threshold cmap l (rows.take n) initialState
    exact ⟨h.1, h.2.1, h.2.2⟩
  · have hsplit : rows.take (n + 1) = rows.take n ++ rows[n]?.toList := List.take_succ
    unfold runEval
    rw [hsplit, List.foldl_append]
    exact run_counts_ge predict threshold cmap l _ _

/-! ### Aggregation of metrics (claim C2, lines 105-147)

Python float arithmetic is modelled exactly over `ℚ`; `round(x, 4)` is
modelled as decimal rounding half-to-even (Python's rounding mode) at four
decimal places. -/

/-- Round a rational to the nearest integer, ties to even. -/
def roundHalfEven (q : ℚ) : ℤ :=
  let f : ℤ := q.floor
  let r : ℚ := q - (f : ℚ)
  if r < (1 : ℚ)/2 then f
  else if (1 : ℚ)/2 < r then f + 1
  else if f % 2 = 0 then f else f + 1

/-- Embeds `round(x, 4)`: round to four decimal places. -/
def roundTo4 (q : ℚ) : ℚ := mkRat (roundHalfEven (q * 10000)) 10000

/-- One per-label entry of the output metrics table (lines 112-119); the
same shape carries the micro-averaged block (lines 138-145). -/
structure LabelMetrics where
  tp : Int
  fp : Int
  fn : Int
  precision : ℚ
  recl : ℚ
  f1 : ℚ
deriving DecidableEq

/-- The loop state of the aggregation loop (lines 105-122): the per-label
table built so far plus the running totals. -/
structure AggState where
  perLabel : List (String × LabelMetrics)
  total_tp : Int
  total_fp : Int
  total_fn : Int

/-- The parts of the script's result object (lines 132-147) the claims are
about: the per-label table and the micro-averaged block. -/
structure EvaluationResult where
  per_label : List (String × LabelMetrics)
  overall_micro : LabelMetrics

/-- The loop body of lines 107-122: compute this label's metrics, append the
table entry, add the counts into the totals. -/
def aggStep (counts : String → Counts) (acc : AggState) (l : String) : AggState :=
  let c := counts l
  let precision : ℚ := if c.tp + c.fp ≠ 0 then (c.tp : ℚ) / ((c.tp : ℚ) + (c.fp : ℚ)) else 0
  let recl : ℚ := if c.tp + c.fn ≠ 0 then (c.tp : ℚ) / ((c.tp : ℚ) + (c.fn : ℚ)) else 0
  let f1 : ℚ :=
    if precision + recl ≠ 0 then 2 * precision * recl / (precision + recl) else 0
  { perLabel := acc.perLabel ++
      [(l, ⟨c.tp, c.fp, c.fn, roundTo4 precision, roundTo4 recl, roundTo4 f1⟩)],
    total_tp := acc.total_tp + c.tp,
    total_fp := acc.total_fp + c.fp,
    total_fn := acc.total_fn + c.fn }

/-- Lines 105-147: iterate over `sorted(counts.items())`, then compute the
micro metrics from the summed totals. -/
def aggregate (counts : String → Counts) (labels : List String) : EvaluationResult :=
  let st := (labels.insertionSort (· ≤ ·)).foldl (aggStep counts) ⟨[], 0, 0, 0⟩
  let microPrecision : ℚ :=
    if st.total_tp + st.total_fp ≠ 0
    then (st.total_tp : ℚ) / ((st.total_tp : ℚ) + (st.total_fp : ℚ)) else 0
  let microRecall : ℚ :=
    if st.total_tp + st.total_fn ≠ 0
    then (st.total_tp : ℚ) / ((st.total_tp : ℚ) + (st.total_fn : ℚ)) else 0
  let microF1 : ℚ :=
    if microPrecision + microRecall ≠ 0
    then 2 * microPrecision * microRecall / (microPrecision + microRecall) else 0
  ⟨st.perLabel,
   ⟨st.total_tp, st.total_fp, st.total_fn,
    roundTo4 microPrecision, roundTo4 microRecall, roundTo4 microF1⟩⟩

/-- The claimed metric formulas for a count record: `precision = tp/(tp+fp)`
(0 when the denominator is 0), `recall = tp/(tp+fn)` (0 when the denominator
is 0), `f1 = 2PR/(P+R)` (0 when `P+R` is 0), each rounded to 4 decimal
places. -/
def metricsOfCounts (c : Counts) : LabelMetrics :=
  let precision : ℚ := if c.tp + c.fp ≠ 0 then (c.tp : ℚ) / ((c.tp : ℚ) + (c.fp : ℚ)) else 0
  let recl : ℚ := if c.tp + c.fn ≠ 0 then (c.tp : ℚ) / ((c.tp : ℚ) + (c.fn : ℚ)) else 0
  let f1 : ℚ :=
    if precision + recl ≠ 0 then 2 * precision * recl / (precision + recl) else 0
  ⟨c.tp, c.fp, c.fn, roundTo4 precision, roundTo4 recl, roundTo4 f1⟩

theorem aggFold (counts : String → Counts) :
    ∀ (ls : List String) (acc : AggState),
      ((ls.foldl (aggStep counts) acc).perLabel =
        acc.perLabel ++ ls.map (fun l => (l, metricsOfCounts (counts l)))) ∧
      ((ls.foldl (aggStep counts) acc).total_tp =
        acc.total_tp + (ls.map fun l => (counts l).tp).sum) ∧
      ((ls.foldl (aggStep counts) acc).total_fp =
        acc.total_fp + (ls.map fun l => (counts l).fp).sum) ∧
      ((ls.foldl (aggStep counts) acc).total_fn =
        acc.total_fn + (ls.map fun l => (counts l).fn).sum) := by
  intro ls
  induction ls with
  | nil => intro acc; simp
  | cons l ls ih =>
    intro acc
    rw [List.foldl_cons]
    obtain ⟨ih1, ih2, ih3, ih4⟩ := ih (aggStep counts acc l)
    refine ⟨?_, ?_, ?_, ?_⟩
    · rw [ih1]
      show (acc.perLabel ++ [(l, metricsOfCounts (counts l))]) ++ _ = _
      rw [List.append_assoc]
      rfl
    · rw [ih2]
      show acc.total_tp + (counts l).tp + _ = _
      simp only [List.map_cons, List.sum_cons]
      ring
    · rw [ih3]
      show acc.total_fp + (counts l).fp + _ = _
      simp only [List.map_cons, List.sum_cons]
      ring
    · rw [ih4]
      show acc.total_fn + (counts l).fn + _ = _
      simp only [List.map_cons, List.sum_cons]
      ring

/-- Claim C2: the per-label table consists, in ascending lexicographic label
order, of exactly the claimed precision/recall/F1 formulas (0 on zero
denominators, rounded to 4 decimal places) applied to each label's counts;
and the micro block applies the same formulas to the tp/fp/fn sums taken
across every label. -/
theorem aggregate_spec (counts : String → Counts) (labels : List String) :
    ((aggregate counts labels).per_label =
      (labels.insertionSort (· ≤ ·)).map (fun l => (l, metricsOfCounts (counts l)))) ∧
    (((aggregate counts labels).per_label.map Prod.fst).Sorted (· ≤ ·)) ∧
    ((aggregate counts labels).overall_micro =
      metricsOfCounts
        ⟨(labels.map fun l => (counts l).tp).sum,
         (labels.map fun l => (counts l).fp).sum,
         (labels.map fun l => (counts l).fn).sum⟩) := by
  obtain ⟨h1, h2, h3, h4⟩ :=
    aggFold counts (labels.insertionSort (· ≤ ·)) ⟨[], 0, 0, 0⟩
  have hperm : List.Perm (labels.insertionSort (· ≤ ·)) labels :=
    List.perm_insertionSort _ _
  have htp : ((labels.insertionSort (· ≤ ·)).map fun l => (counts l).tp).sum =
      (labels.map fun l => (counts l).tp).sum := (hperm.map _).sum_eq
  have hfp : ((labels.insertionSort (· ≤ ·)).map fun l => (counts l).fp).sum =
      (labels.map fun l => (counts l).fp).sum := (hperm.map _).sum_eq
  have hfn : ((labels.insertionSort (· ≤ ·)).map fun l => (counts l).fn).sum =
      (labels.map fun l => (counts l).fn).sum := (hperm.map _).sum_eq
  refine ⟨?_, ?_, ?_⟩
  · show ((labels.insertionSort (· ≤ ·)).foldl (aggStep counts) ⟨[], 0, 0, 0⟩).perLabel = _
    rw [h1]
    rfl
  · show (((labels.insertionSort (· ≤ ·)).foldl (aggStep counts)
        ⟨[], 0, 0, 0⟩).perLabel.map Prod.fst).Sorted (· ≤ ·)
    rw [h1]
    show ((labels.insertionSort (· ≤ ·)).map
      (fun l => (l, metricsOfCounts (counts l)))).map Prod.fst |>.Sorted (· ≤ ·)
    rw [List.map_map]
    have : (Prod.fst ∘ fun l => (l, metricsOfCounts (counts l))) = id := by
      funext l; rfl
    rw [this, List.map_id]
    exact List.sorted_insertionSort _ _
  · show (⟨_, _, _, _, _, _⟩ : LabelMetrics) = _
    rw [show ((⟨[], 0, 0, 0⟩ : AggState)).total_tp = (0 : Int) from rfl] at h2
    rw [show ((⟨[], 0, 0, 0⟩ : AggState)).total_fp = (0 : Int) from rfl] at h3
    rw [show ((⟨[], 0, 0, 0⟩ : AggState)).total_fn = (0 : Int) from rfl] at h4
    rw [zero_add] at h2 h3 h4
    simp only [h2, h3, h4, htp, hfp, hfn]
    rfl

/-! ### Prediction grouping and label merging (claim C3) -/

/-- Claim C3: a predicted entity is dropped unless both its label and text
are non-empty; the retained entities are grouped by their label into a set
of normalized span texts (duplicate spans collapse, as membership fully
determines the set); and dataset labels sharing one canonical label are
scored against the identical predicted set. -/
theorem predSet_grouping (ents : List Entity) (c x : String)
    (predict : Predictor) (threshold : ℚ) (cmap : List (String × String)) (r : Row)
    (l₁ l₂ : String) :
    (x ∈ predSetOf ents c ↔
      ∃ e ∈ ents, e.label ≠ "" ∧ e.text ≠ "" ∧ e.label = c ∧ normalize_text e.text = x) ∧
    (canonicalize cmap l₁ = canonicalize cmap l₂ →
      predSetFor predict threshold cmap r l₁ = predSetFor predict threshold cmap r l₂) := by
  constructor
  · unfold predSetOf
    rw [List.mem_toFinset, List.mem_map]
    constructor
    · rintro ⟨e, hmem, rfl⟩
      rw [List.mem_filter] at hmem
      obtain ⟨hin, hcond⟩ := hmem
      have hk : keepEntity e = true ∧ (e.label == c) = true := by
        simpa using hcond
      have hlab : e.label ≠ "" ∧ e.text ≠ "" := by
        have := hk.1
        unfold keepEntity at this
        simpa using this
      exact ⟨e, hin, hlab.1, hlab.2, by simpa using hk.2, rfl⟩
    · rintro ⟨e, hin, hl, ht, rfl, rfl⟩
      refine ⟨e, ?_, rfl⟩
      rw [List.mem_filter]
      refine ⟨hin, ?_⟩
      have hk : keepEntity e = true := by
        unfold keepEntity
        simp [hl, ht]
      simp [hk]
  · intro h
    unfold predSetFor
    rw [h]

theorem predSet_grouping_witness :
    canonicalize DEFAULT_CANONICAL_LABEL_MAP "NAME_STUDENT" =
      canonicalize DEFAULT_CANONICAL_LABEL_MAP "person name" ∧
    predSetFor (fun _ _ _ => []) (1/2) DEFAULT_CANONICAL_LABEL_MAP
        ⟨"x", []⟩ "NAME_STUDENT" =
      predSetFor (fun _ _ _ => []) (1/2) DEFAULT_CANONICAL_LABEL_MAP
        ⟨"x", []⟩ "person name" :=
  ⟨by decide,
    (predSet_grouping [] "person name" "" (fun _ _ _ => []) (1/2)
      DEFAULT_CANONICAL_LABEL_MAP ⟨"x", []⟩ "NAME_STUDENT" "person name").2 (by decide)⟩

/-! ### Canonicalization and the labels passed to the model (claim C5) -/

/-- Claim C5: `canonicalize` passes unmapped labels through unchanged, and a
row's model invocation receives exactly the distinct canonical labels
derived from that row's gold label keys — the per-row scoring depends on the
predictor only through its value at that label set. -/
theorem canonicalization_spec (cmap : List (String × String)) (l : String) (r : Row)
    (predict₁ predict₂ : Predictor) (threshold : ℚ) (st : EvalState) :
    (cmap.lookup l = none → canonicalize cmap l = l) ∧
    ((canonicalLabelsOf cmap r).toFinset =
      (r.gold.map Prod.fst).toFinset.image (canonicalize cmap)) ∧
    (canonicalLabelsOf cmap r).Nodup ∧
    (predict₁ r.text (canonicalLabelsOf cmap r) threshold =
        predict₂ r.text (canonicalLabelsOf cmap r) threshold →
      processRow predict₁ threshold cmap st r = processRow predict₂ threshold cmap st r) := by
  refine ⟨?_, ?_, ?_, ?_⟩
  · intro h
    unfold canonicalize
    rw [h]
    rfl
  · unfold canonicalLabelsOf
    rw [List.toFinset_eq_of_perm _ _ (List.perm_insertionSort _ _)]
    rw [show ((datasetLabels r).map (canonicalize cmap)).dedup.toFinset =
        ((datasetLabels r).map (canonicalize cmap)).toFinset from by ext y; simp]
    have hperm : List.Perm (datasetLabels r) (r.gold.map Prod.fst) := datasetLabels_perm r
    have h1 : ((datasetLabels r).map (canonicalize cmap)).toFinset =
        (datasetLabels r).toFinset.image (canonicalize cmap) := by
      ext y
      simp
    rw [h1, List.toFinset_eq_of_perm _ _ hperm]
  · exact ((List.perm_insertionSort _ _).nodup_iff).mpr (List.nodup_dedup _)
  · intro h
    unfold processRow
    by_cases hemp : (datasetLabels r).isEmpty
    · rw [if_pos hemp, if_pos hemp]
    · rw [if_neg hemp, if_neg hemp]
      unfold predSetFor at *
      rw [h]

theorem canonicalization_spec_witness :
    (DEFAULT_CANONICAL_LABEL_MAP.lookup "PROJECT_CODE" = none ∧
      canonicalize DEFAULT_CANONICAL_LABEL_MAP "PROJECT_CODE" = "PROJECT_CODE") ∧
    ((fun _ _ _ => ([] : List Entity)) "x"
        (canonicalLabelsOf DEFAULT_CANONICAL_LABEL_MAP
          ⟨"x", [("EMAIL", [PyVal.str "a@b.com"])]⟩) (1/2) =
      (fun (_ : String) (ls : List String) (_ : ℚ) =>
        if ls.length = 0 then [(⟨"q", "q"⟩ : Entity)] else []) "x"
        (canonicalLabelsOf DEFAULT_CANONICAL_LABEL_MAP
          ⟨"x", [("EMAIL", [PyVal.str "a@b.com"])]⟩) (1/2) ∧
      processRow (fun _ _ _ => ([] : List Entity)) (1/2) DEFAULT_CANONICAL_LABEL_MAP
          initialState ⟨"x", [("EMAIL", [PyVal.str "a@b.com"])]⟩ =
        processRow (fun (_ : String) (ls : List String) (_ : ℚ) =>
            if ls.length = 0 then [(⟨"q", "q"⟩ : Entity)] else []) (1/2)
          DEFAULT_CANONICAL_LABEL_MAP initialState
          ⟨"x", [("EMAIL", [PyVal.str "a@b.com"])]⟩) :=
  ⟨⟨by decide,
    (canonicalization_spec DEFAULT_CANONICAL_LABEL_MAP "PROJECT_CODE"
      ⟨"x", [("EMAIL", [PyVal.str "a@b.com"])]⟩ (fun _ _ _ => [])
      (fun _ _ _ => []) (1/2) initialState).1 (by decide)⟩,
   ⟨by decide,
    (canonicalization_spec DEFAULT_CANONICAL_LABEL_MAP "PROJECT_CODE"
      ⟨"x", [("EMAIL", [PyVal.str "a@b.com"])]⟩ (fun _ _ _ => [])
      (fun (_ : String) (ls : List String) (_ : ℚ) =>
        if ls.length = 0 then [(⟨"q", "q"⟩ : Entity)] else []) (1/2)
      initialState).2.2.2 (by decide)⟩⟩

/-! ### Whitespace-only predicted spans (claim C10) -/

/-- Claim C10: a predicted entity whose text is non-empty but all whitespace
passes the entity filter, normalizes to the empty string, and lands in its
label's predicted set; since blank gold values are dropped, the empty string
is never in any gold set, so such an entity can never count as a true
positive and always contributes a false positive. -/
theorem whitespace_entity_fp (ents : List Entity) (e : Entity) (values : List PyVal)
    (he : e ∈ ents) (hlabel : e.label ≠ "") (htext : e.text ≠ "")
    (hws : ∀ ch ∈ e.text.data, isPySpace ch = true) :
    keepEntity e = true ∧
    normalize_text e.text = "" ∧
    ("" : String) ∈ predSetOf ents e.label ∧
    ("" : String) ∉ goldSetOf values ∧
    1 ≤ ((predSetOf ents e.label \ goldSetOf values).card) := by
  have hnorm : normalize_text e.text = "" := by
    unfold normalize_text
    have h1 : stripLeft e.text.data = [] :=
      List.dropWhile_eq_nil_iff.mpr hws
    have h2 : pyStrip e.text.data = [] := by
      unfold pyStrip
      rw [h1]
      rfl
    rw [h2]
    rfl
  have hkeep : keepEntity e = true := by
    unfold keepEntity
    simp [hlabel, htext]
  have hpred : ("" : String) ∈ predSetOf ents e.label := by
    unfold predSetOf
    rw [List.mem_toFinset, List.mem_map]
    refine ⟨e, ?_, hnorm⟩
    rw [List.mem_filter]
    exact ⟨he, by simp [hkeep]⟩
  have hgold : ("" : String) ∉ goldSetOf values := by
    unfold goldSetOf
    rw [List.mem_toFinset, List.mem_filterMap]
    rintro ⟨v, _, hv⟩
    cases v with
    | str s =>
      have hv' : (if pyStrip s.data ≠ [] then some (normalize_text s) else none) =
          some ("" : String) := hv
      by_cases hs : pyStrip s.data ≠ []
      · rw [if_pos hs] at hv'
        have : normalize_text s = "" := by simpa using hv'
        unfold normalize_text at this
        have hdata : collapseSpaces ((pyStrip s.data).map pyLower) = [] := by
          have := congrArg String.data this
          simpa using this
        have hne : (pyStrip s.data).map pyLower ≠ [] := by
          simpa using hs
        exact collapseSpaces_ne_nil hne hdata
      · rw [if_neg hs] at hv'
        exact Option.noConfusion hv'
    | other =>
      have hv' : (none : Option String) = some ("" : String) := hv
      exact Option.noConfusion hv
  refine ⟨hkeep, hnorm, hpred, hgold, ?_⟩
  have : ("" : String) ∈ predSetOf ents e.label \ goldSetOf values :=
    Finset.mem_sdiff.mpr ⟨hpred, hgold⟩
  exact Finset.card_pos.mpr ⟨"", this⟩

theorem whitespace_entity_fp_witness :
    ((⟨"person name", " "⟩ : Entity) ∈ [(⟨"person name", " "⟩ : Entity)]) ∧
    (⟨"person name", " "⟩ : Entity).label ≠ "" ∧
    (⟨"person name", " "⟩ : Entity).text ≠ "" ∧
    (∀ ch ∈ (⟨"person name", " "⟩ : Entity).text.data, isPySpace ch = true) ∧
    (keepEntity ⟨"person name", " "⟩ = true ∧
      normalize_text (⟨"person name", " "⟩ : Entity).text = "" ∧
      ("" : String) ∈ predSetOf [⟨"person name", " "⟩] (⟨"person name", " "⟩ : Entity).label ∧
      ("" : String) ∉ goldSetOf [PyVal.str "bob"] ∧
      1 ≤ ((predSetOf [⟨"person name", " "⟩] (⟨"person name", " "⟩ : Entity).label \
        goldSetOf [PyVal.str "bob"]).card)) :=
  ⟨by decide, by decide, by decide, by decide,
    whitespace_entity_fp [⟨"person name", " "⟩] ⟨"person name", " "⟩ [PyVal.str "bob"]
      (by decide) (by decide) (by decide) (by decide)⟩
